import Mathlib

/-!
Shallow embedding of the working-hours processing core
(`read_pos_csv`, `normalize`, `process_excel` from `processing_logic.py`).

Strings are modelled as Lean `String`s (lists of characters), worked hours as
exact rationals, the spreadsheet as a map from (column letter, row index) to
optional cell values together with a fill map and a maximum populated row,
and Python exceptions raised inside the per-record loop as `Except`.
-/

namespace WHProc

/-! ### Character classes (ASCII, as used by the regexes in the source) -/

def spaceChar : Char := Char.ofNat 32

def dotChar : Char := Char.ofNat 46

/-- Whitespace characters recognised by Python `str.strip` / `str.split`. -/
def isWsChar (c : Char) : Bool :=
  decide (c.toNat = 32 ∨ c.toNat = 9 ∨ c.toNat = 10 ∨ c.toNat = 13 ∨
          c.toNat = 11 ∨ c.toNat = 12)

/-- Characters kept by the regex `[^0-9a-z]` used in `normalize`. -/
def isLowerAlnum (c : Char) : Bool :=
  decide ((48 ≤ c.toNat ∧ c.toNat ≤ 57) ∨ (97 ≤ c.toNat ∧ c.toNat ≤ 122))

/-- ASCII decimal digit, as matched by the regex class `\d`. -/
def isDigitChar (c : Char) : Bool :=
  decide (48 ≤ c.toNat ∧ c.toNat ≤ 57)

/-- Python `str.lower` on a single (ASCII) character. -/
def lowerChar (c : Char) : Char :=
  if 65 ≤ c.toNat ∧ c.toNat ≤ 90 then Char.ofNat (c.toNat + 32) else c

/-- The substitution `re.sub(r'[^0-9a-z]', ' ', ·)` on one character. -/
def subChar (c : Char) : Char :=
  if isLowerAlnum c then c else spaceChar

/-! ### Python string primitives used by `normalize` -/

/-- Python `str.strip`: remove leading and trailing whitespace. -/
def pyStrip (l : List Char) : List Char :=
  ((l.dropWhile isWsChar).reverse.dropWhile isWsChar).reverse

/-- Python `str.split()` (no argument): split on whitespace runs, dropping
empty pieces.  The second argument accumulates the current word reversed. -/
def splitWsAux : List Char → List Char → List (List Char)
  | [], cur => if cur.isEmpty then [] else [cur.reverse]
  | c :: cs, cur =>
    if isWsChar c then
      if cur.isEmpty then splitWsAux cs [] else cur.reverse :: splitWsAux cs []
    else splitWsAux cs (c :: cur)

/-- Python `' '.join(words)`. -/
def joinSpace : List (List Char) → List Char
  | [] => []
  | [w] => w
  | w :: ws => w ++ spaceChar :: joinSpace ws

/-- `normalize` from `processing_logic.py`:
`' '.join(re.sub(r'[^0-9a-z]', ' ', s.strip().lower()).split())`. -/
def normalize (s : String) : String :=
  String.mk (joinSpace (splitWsAux (((pyStrip s.data).map lowerChar).map subChar) []))

/-! ### CSV loader (`read_pos_csv`) -/

/-- Value of a digit character. -/
def digitVal (c : Char) : ℕ := c.toNat - 48

/-- Numeric value of a digit string (most significant digit first). -/
def natOfDigits (l : List Char) : ℕ :=
  l.foldl (fun a c => 10 * a + digitVal c) 0

/-- Cleaning step `df["Work Hours"].str.replace(r'[^\d.]', '', regex=True)`:
remove every character that is not a digit or a decimal point. -/
def cleanHours (s : String) : String :=
  String.mk (s.data.filter (fun c => isDigitChar c || decide (c = dotChar)))

/-- `pd.to_numeric(·, errors='coerce')` applied to a cleaned hours string:
parses an unsigned decimal literal (at least one digit, at most one dot);
anything else coerces to NaN, modelled as `none`. -/
def toNumeric (s : String) : Option ℚ :=
  let cs := s.data
  if (cs.all fun c => isDigitChar c || decide (c = dotChar)) = false then none
  else if cs.any isDigitChar = false then none
  else if (cs.filter fun c => decide (c = dotChar)).length = 0 then
    some (natOfDigits cs)
  else if (cs.filter fun c => decide (c = dotChar)).length = 1 then
    let ip := cs.takeWhile fun c => decide (c ≠ dotChar)
    let fp := (cs.dropWhile fun c => decide (c ≠ dotChar)).drop 1
    some ((natOfDigits ip : ℚ) + (natOfDigits fp : ℚ) / (10 : ℚ) ^ fp.length)
  else none

/-- One data row of the POS CSV (rows after the header row), reduced to the
columns the loader looks at: the second physical column (index 1, used for the
`"Role"` cutoff test) and the `"Name"` / `"Work Hours"` columns. -/
structure RawRow where
  colB : String
  name : String
  workHours : String
deriving DecidableEq

/-- A surviving row of the returned dataset: non-empty name, parsed hours. -/
structure CleanRecord where
  name : String
  hours : ℚ
deriving DecidableEq

/-- The cutoff scan: index of the first row whose second column equals
`"Role"`, or the number of rows when no such row exists. -/
def cutoffIndex : List RawRow → ℕ
  | [] => 0
  | r :: rs => if r.colB = "Role" then 0 else cutoffIndex rs + 1

/-- Per-row cleaning and dropping: a row survives exactly when its name is
present (non-empty) and its cleaned hours text parses to a number. -/
def cleanRow (r : RawRow) : Option CleanRecord :=
  if r.name = "" then none
  else (toNumeric (cleanHours r.workHours)).map fun q => CleanRecord.mk r.name q

/-- The dataset produced from the usable section of the CSV. -/
def readPosCsvRows (rows : List RawRow) : List CleanRecord :=
  (rows.take (cutoffIndex rows)).filterMap cleanRow

/-- A Python exception reaching one of the `except` handlers. -/
inductive PyError
  | fileNotFound
  | other (msg : String)
deriving DecidableEq

/-- `read_pos_csv`: the whole body runs inside `try`; a failed file read or
parse (`loadRes = .error _`) is caught and converted to the sentinel `None`,
otherwise the cleaned dataset is returned. -/
def read_pos_csv (loadRes : Except PyError (List RawRow)) :
    Option (List CleanRecord) :=
  match loadRes with
  | Except.error _ => none
  | Except.ok rows => some (readPosCsvRows rows)

/-! ### Spreadsheet model -/

/-- A cell value: openpyxl stores the numbers and strings the code writes. -/
inductive CellVal
  | num (q : ℚ)
  | str (s : String)
deriving DecidableEq

/-- An openpyxl `PatternFill`, by its constructor arguments. -/
structure Fill where
  startColor : String
  endColor : String
  fillType : String
deriving DecidableEq

/-- `PatternFill(start_color="FFFF0000", end_color="FFFF0000", fill_type="solid")`. -/
def redFill : Fill :=
  { startColor := "FFFF0000", endColor := "FFFF0000", fillType := "solid" }

/-- The active worksheet: `maxRow` is openpyxl `ws.max_row`; `cells` and
`fills` give each (column letter, row) its value and fill, if any. -/
structure Sheet where
  maxRow : ℕ
  cells : String × ℕ → Option CellVal
  fills : String × ℕ → Option Fill

/-- Read a cell value, `ws[f'{col}{r}'].value`. -/
def Sheet.cell (ws : Sheet) (col : String) (r : ℕ) : Option CellVal :=
  ws.cells (col, r)

/-- Read a cell fill. -/
def Sheet.fillAt (ws : Sheet) (col : String) (r : ℕ) : Option Fill :=
  ws.fills (col, r)

/-- Assign a cell value, `ws[f'{col}{r}'] = v` (extends `max_row` if needed). -/
def Sheet.setCell (ws : Sheet) (col : String) (r : ℕ) (v : CellVal) : Sheet :=
  { maxRow := max ws.maxRow r,
    cells := fun p => if p = (col, r) then some v else ws.cells p,
    fills := ws.fills }

/-- Assign a cell fill, `ws[f'{col}{r}'].fill = f`. -/
def Sheet.setFill (ws : Sheet) (col : String) (r : ℕ) (f : Fill) : Sheet :=
  { ws with fills := fun p => if p = (col, r) then some f else ws.fills p }

/-- `ws.insert_rows(idx)`: rows at or below `idx` shift down one, the freed
row is empty, and `max_row` grows when occupied rows actually shifted. -/
def Sheet.insertRows (ws : Sheet) (idx : ℕ) : Sheet :=
  { maxRow := if idx ≤ ws.maxRow then ws.maxRow + 1 else ws.maxRow,
    cells := fun p =>
      if p.2 < idx then ws.cells p
      else if p.2 = idx then none
      else ws.cells (p.1, p.2 - 1),
    fills := fun p =>
      if p.2 < idx then ws.fills p
      else if p.2 = idx then none
      else ws.fills (p.1, p.2 - 1) }

/-- Python truthiness of a cell value (`if val:`): absent cells, empty
strings and the number 0 are falsy. -/
def truthy : Option CellVal → Bool
  | none => false
  | some (CellVal.num q) => decide (q ≠ 0)
  | some (CellVal.str s) => decide (s ≠ "")

/-- Python `str(val)` on a cell value. -/
def cellStr : CellVal → String
  | CellVal.num q => toString q
  | CellVal.str s => s

/-- `range(2, ws.max_row + 1)`: the scanned row indices 2 .. max_row. -/
def scanRows (ws : Sheet) : List ℕ := List.range' 2 (ws.maxRow - 1)

/-- The `name_to_row` dictionary: scan column C over rows 2..max_row, mapping
each truthy cell's normalized text to its row; later rows overwrite earlier
ones (last occurrence wins).  Lookup is `name_to_row.get(key)`. -/
def nameToRow (ws : Sheet) : String → Option ℕ :=
  (scanRows ws).foldl
    (fun acc r =>
      match ws.cell "C" r with
      | some v =>
        if truthy (some v) then
          fun k => if k = normalize (cellStr v) then some r else acc k
        else acc
      | none => acc)
    (fun _ => none)

/-- `max(r for r in range(2, ws.max_row+1) if ws[f'B{r}'].value)`; `none`
models the `ValueError` Python raises on an empty generator. -/
def lastB (ws : Sheet) : Option ℕ :=
  ((scanRows ws).filter fun r => truthy (ws.cell "B" r)).max?

/-- The fixed ignore set, built by normalizing the placeholder labels. -/
def ignoreNames : List String :=
  [normalize "H-R Host", normalize "Online", normalize "S-COMMON Server",
   normalize "S-Johnny Server"]

/-- One row of the `csv_data` frame as the merger reads it:
`str(row['Name'])` and `row['Work Hours']` (`none` models NaN). -/
structure InRecord where
  name : String
  hours : Option ℚ
deriving DecidableEq

/-- `not raw_name.strip()`: the name is empty or whitespace-only. -/
def isBlank (s : String) : Bool := (pyStrip s.data).isEmpty

/-- The merger's loop state: the worksheet plus the `processed` key set. -/
structure MergeState where
  ws : Sheet
  processed : List String

/-- `reg_hours = min(hours, 40)`. -/
def regHoursOf (h : ℚ) : ℚ := min h 40

/-- `ot_hours = max(hours - 40, 0)`. -/
def otHoursOf (h : ℚ) : ℚ := max (h - 40) 0

/-- `ot_hours or ''`: write the empty string instead of a zero overtime. -/
def otCellVal (h : ℚ) : CellVal :=
  if otHoursOf h = 0 then CellVal.str "" else CellVal.num (otHoursOf h)

/-- The body of the merger's per-record loop.  `lookup` is the `name_to_row`
dictionary built once before the loop (it is NOT rebuilt from the mutated
sheet, so after an insertion a matched write still lands at the pre-built,
possibly stale, row index).  `Except.error` models the
uncaught-at-this-level `ValueError` from `max()` on an empty generator. -/
def processRecord (regCol otCol : String) (lookup : String → Option ℕ)
    (st : MergeState) (rec : InRecord) : Except String MergeState :=
  if isBlank rec.name then Except.ok st
  else
    match rec.hours with
    | none => Except.ok st
    | some hours =>
      let key := normalize rec.name
      if key ∈ ignoreNames then Except.ok st
      else if key ∈ st.processed then Except.ok st
      else
        match lookup key with
        | some target =>
          Except.ok
            { ws := (st.ws.setCell regCol target
                       (CellVal.num (regHoursOf hours))).setCell
                      otCol target (otCellVal hours),
              processed := key :: st.processed }
        | none =>
          match lastB st.ws with
          | none => Except.error "max() arg is an empty sequence"
          | some lb =>
            let ins := lb + 1
            Except.ok
              { ws := (((((st.ws.insertRows ins).setCell "B" ins
                            (CellVal.str rec.name)).setFill "B" ins
                            redFill).setCell regCol ins
                            (CellVal.num (regHoursOf hours))).setCell
                          otCol ins (otCellVal hours)),
                processed := key :: st.processed }

/-- Week-selector resolution: Week 1 → (S, T), Week 2 → (V, W). -/
def weekCols (week_choice : String) : Option (String × String) :=
  if week_choice = "Week 1" then some ("S", "T")
  else if week_choice = "Week 2" then some ("V", "W")
  else none

/-- Outcome of `process_excel`: the returned pair plus the workbook written
to the output path (`none` when nothing was saved). -/
structure PResult where
  success : Bool
  message : String
  saved : Option Sheet

/-- The merger's whole record loop: the `name_to_row` dictionary is built
once from the freshly loaded sheet, before any record is processed. -/
def processAll (regCol otCol : String) (recs : List InRecord) (ws : Sheet) :
    Except String Sheet :=
  match recs.foldlM (processRecord regCol otCol (nameToRow ws))
      { ws := ws, processed := [] } with
  | Except.error e => Except.error e
  | Except.ok st => Except.ok st.ws

/-- `process_excel`: empty-data guard, workbook load, week resolution, the
record loop, and the save, with both `except` handlers folded in. -/
def process_excel (template_path : String) (templateLoad : Except PyError Sheet)
    (csv_data : Option (List InRecord)) (week_choice : String)
    (output_path : String) : PResult :=
  match csv_data with
  | none => { success := false, message := "No valid CSV data provided.", saved := none }
  | some recs =>
    if recs.isEmpty then
      { success := false, message := "No valid CSV data provided.", saved := none }
    else
      match templateLoad with
      | Except.error PyError.fileNotFound =>
        { success := false, message := "Template not found: " ++ template_path,
          saved := none }
      | Except.error (PyError.other m) =>
        { success := false, message := "Error processing: " ++ m, saved := none }
      | Except.ok ws =>
        match weekCols week_choice with
        | none =>
          { success := false,
            message := "Invalid week choice. Must be \x27Week 1\x27 or \x27Week 2\x27.",
            saved := none }
        | some (regCol, otCol) =>
          match processAll regCol otCol recs ws with
          | Except.error e =>
            { success := false, message := "Error processing: " ++ e, saved := none }
          | Except.ok wsF =>
            { success := true, message := "Saved to " ++ output_path,
              saved := some wsF }

/-! ### Concrete inputs used by the witness theorems -/

/-- A template whose columns B and C are entirely empty. -/
def wsNoB : Sheet := { maxRow := 3, cells := fun _ => none, fills := fun _ => none }

/-- A template with the employee "Jane Doe" at row 2 (columns B and C). -/
def wsJane : Sheet :=
  { maxRow := 3,
    cells := fun p =>
      if p = ("C", 2) then some (CellVal.str "Jane Doe")
      else if p = ("B", 2) then some (CellVal.str "Jane Doe")
      else none,
    fills := fun _ => none }

/-- Initial merge state over `wsJane`. -/
def stJane0 : MergeState := { ws := wsJane, processed := [] }

/-- A CSV record for Jane Doe with 45 worked hours. -/
def recJane : InRecord := { name := "Jane Doe", hours := some 45 }

/-- A case/space variant of the same employee. -/
def recJaneDup : InRecord := { name := "JANE  doe", hours := some 5 }

/-- An employee absent from the template. -/
def recBob : InRecord := { name := "Bob", hours := some 10 }

/-- A two-row CSV whose second row carries the `"Role"` cutoff marker. -/
def rowsRole : List RawRow :=
  [RawRow.mk "Alice" "Alice" "40", RawRow.mk "Role" "" ""]

/-- A single-row CSV with a fractional hours value and trailing text. -/
def rowsFrac : List RawRow := [RawRow.mk "Jane" "Jane" "37.5 hrs"]

/-- The state after merging `recJane` into `stJane0`. -/
def stJane1 : MergeState :=
  { ws := (wsJane.setCell "S" 2 (CellVal.num (regHoursOf 45))).setCell "T" 2
            (otCellVal 45),
    processed := [normalize "Jane Doe"] }

end WHProc

namespace WHProc

/-! ### Worksheet access lemmas -/

theorem cell_setCell_self (ws : Sheet) (c : String) (r : ℕ) (v : CellVal) :
    (ws.setCell c r v).cell c r = some v := by
  simp [Sheet.setCell, Sheet.cell]

theorem cell_setCell_ne (ws : Sheet) {c c' : String} {r r' : ℕ} (v : CellVal)
    (h : (c', r') ≠ (c, r)) :
    (ws.setCell c r v).cell c' r' = ws.cell c' r' := by
  simp [Sheet.setCell, Sheet.cell, h]

theorem fillAt_setCell (ws : Sheet) (c c' : String) (r r' : ℕ) (v : CellVal) :
    (ws.setCell c r v).fillAt c' r' = ws.fillAt c' r' := rfl

theorem cell_setFill (ws : Sheet) (c c' : String) (r r' : ℕ) (f : Fill) :
    (ws.setFill c r f).cell c' r' = ws.cell c' r' := rfl

theorem fillAt_setFill_self (ws : Sheet) (c : String) (r : ℕ) (f : Fill) :
    (ws.setFill c r f).fillAt c r = some f := by
  simp [Sheet.setFill, Sheet.fillAt]

theorem cell_insertRows_lt (ws : Sheet) (c : String) {idx r : ℕ} (h : r < idx) :
    (ws.insertRows idx).cell c r = ws.cell c r := by
  simp [Sheet.insertRows, Sheet.cell, h]

theorem cell_insertRows_gt (ws : Sheet) (c : String) {idx r : ℕ} (h : idx < r) :
    (ws.insertRows idx).cell c r = ws.cell c (r - 1) := by
  simp [Sheet.insertRows, Sheet.cell, Nat.lt_asymm h, Nat.ne_of_gt h]

theorem maxRow_setCell (ws : Sheet) (c : String) (r : ℕ) (v : CellVal) :
    (ws.setCell c r v).maxRow = max ws.maxRow r := rfl

theorem maxRow_setFill (ws : Sheet) (c : String) (r : ℕ) (f : Fill) :
    (ws.setFill c r f).maxRow = ws.maxRow := rfl

theorem maxRow_insertRows (ws : Sheet) (idx : ℕ) :
    (ws.insertRows idx).maxRow =
      if idx ≤ ws.maxRow then ws.maxRow + 1 else ws.maxRow := rfl

/-! ### `List.max?` characterisation over `ℕ` -/

theorem foldl_max_le (l : List ℕ) (a : ℕ) : a ≤ l.foldl max a := by
  induction l generalizing a with
  | nil => exact Nat.le_refl a
  | cons x xs ih => exact Nat.le_trans (Nat.le_max_left a x) (ih (max a x))

theorem foldl_max_mem (l : List ℕ) (a : ℕ) :
    l.foldl max a = a ∨ l.foldl max a ∈ l := by
  induction l generalizing a with
  | nil => exact Or.inl rfl
  | cons x xs ih =>
    rcases ih (max a x) with h | h
    · rcases Nat.le_total a x with hax | hxa
      · right
        rw [List.foldl_cons, h, Nat.max_eq_right hax]
        exact List.mem_cons_self x xs
      · left
        rw [List.foldl_cons, h, Nat.max_eq_left hxa]
    · right
      exact List.mem_cons_of_mem x h

theorem foldl_max_ub (l : List ℕ) (a : ℕ) : ∀ x ∈ l, x ≤ l.foldl max a := by
  induction l generalizing a with
  | nil => intro x hx; cases hx
  | cons y ys ih =>
    intro x hx
    rcases List.mem_cons.mp hx with rfl | hx
    · exact Nat.le_trans (Nat.le_max_right a x) (foldl_max_le ys (max a x))
    · exact ih (max a y) x hx

theorem foldl_max_lub (l : List ℕ) (a m : ℕ) (ha : a ≤ m)
    (h : ∀ x ∈ l, x ≤ m) : l.foldl max a ≤ m := by
  induction l generalizing a with
  | nil => exact ha
  | cons y ys ih =>
    exact ih (max a y) (Nat.max_le.mpr ⟨ha, h y (List.mem_cons_self y ys)⟩)
      fun x hx => h x (List.mem_cons_of_mem y hx)

theorem max?_spec (l : List ℕ) (m : ℕ) (h : l.max? = some m) :
    m ∈ l ∧ ∀ x ∈ l, x ≤ m := by
  cases l with
  | nil => cases h
  | cons a as =>
    rw [List.max?] at h
    injection h with h
    constructor
    · rcases foldl_max_mem as a with he | he
      · rw [← h, he]; exact List.mem_cons_self a as
      · rw [← h]; exact List.mem_cons_of_mem a he
    · intro x hx
      rcases List.mem_cons.mp hx with rfl | hx
      · rw [← h]; exact foldl_max_le as x
      · rw [← h]; exact foldl_max_ub as a x hx

theorem max?_eq_some_of (l : List ℕ) (m : ℕ) (hm : m ∈ l)
    (hub : ∀ x ∈ l, x ≤ m) : l.max? = some m := by
  cases l with
  | nil => cases hm
  | cons a as =>
    rw [List.max?]
    congr 1
    apply Nat.le_antisymm
    · exact foldl_max_lub as a m (hub a (List.mem_cons_self a as))
        fun x hx => hub x (List.mem_cons_of_mem a hx)
    · rcases List.mem_cons.mp hm with rfl | hm
      · exact foldl_max_le as m
      · exact foldl_max_ub as a m hm

/-! ### Claim C8: the regular/overtime split -/

/-- C8: for every hours value h ≥ 0 the split computed by the merger
satisfies min(h, 40) + max(h - 40, 0) = h, min(h, 40) ≤ 40 and
max(h - 40, 0) ≥ 0. -/
theorem split_conservation : ∀ h : ℚ, 0 ≤ h →
    regHoursOf h + otHoursOf h = h ∧ regHoursOf h ≤ 40 ∧ 0 ≤ otHoursOf h := by
  intro h _
  unfold regHoursOf otHoursOf
  refine ⟨?_, min_le_right h 40, le_max_right (h - 40) 0⟩
  rcases le_total h 40 with hc | hc
  · rw [min_eq_left hc, max_eq_right (by linarith : h - 40 ≤ 0)]; ring
  · rw [min_eq_right hc, max_eq_left (by linarith : (0 : ℚ) ≤ h - 40)]; ring

/-- Witness for C8 at h = 45. -/
theorem split_conservation_witness :
    regHoursOf 45 + otHoursOf 45 = 45 ∧ regHoursOf 45 ≤ 40 ∧ 0 ≤ otHoursOf 45 :=
  split_conservation 45 (by norm_num)

/-! ### Claim C6: fail-fast validation -/

/-- C6: `process_excel` fails with a validation message and writes no file
when the record set is `None` or empty, or when the week selector is neither
"Week 1" nor "Week 2". -/
theorem validation_failfast :
    (∀ tpl tl wk out, process_excel tpl tl none wk out =
      { success := false, message := "No valid CSV data provided.",
        saved := none }) ∧
    (∀ tpl tl wk out, process_excel tpl tl (some []) wk out =
      { success := false, message := "No valid CSV data provided.",
        saved := none }) ∧
    (∀ tpl ws recs wk out, recs ≠ [] → wk ≠ "Week 1" → wk ≠ "Week 2" →
      process_excel tpl (Except.ok ws) (some recs) wk out =
      { success := false,
        message := "Invalid week choice. Must be \x27Week 1\x27 or \x27Week 2\x27.",
        saved := none }) := by
  refine ⟨fun tpl tl wk out => rfl, fun tpl tl wk out => rfl, ?_⟩
  intro tpl ws recs wk out hne hw1 hw2
  have hre : recs.isEmpty = false := by
    cases recs with
    | nil => exact absurd rfl hne
    | cons a as => rfl
  have hw : weekCols wk = none := by simp [weekCols, hw1, hw2]
  simp [process_excel, hre, hw]

/-- Witness for C6 with a non-empty record list and week "Week 3". -/
theorem validation_failfast_witness :
    process_excel "template.xlsx" (Except.ok wsJane) (some [recJane]) "Week 3"
        "out.xlsx" =
      { success := false,
        message := "Invalid week choice. Must be \x27Week 1\x27 or \x27Week 2\x27.",
        saved := none } :=
  validation_failfast.2.2 "template.xlsx" wsJane [recJane] "Week 3" "out.xlsx"
    (List.cons_ne_nil recJane []) (by decide) (by decide)

/-! ### Claim C7: no exception escapes the entry points -/

/-- C7: every input maps to a sentinel or a structured result: a failed load
or parse yields `none` from `read_pos_csv`; `process_excel` always returns
either success (with a saved workbook) or failure (with nothing saved), and
an exception inside the record loop becomes a failure message. -/
theorem no_exception_escapes :
    (∀ e, read_pos_csv (Except.error e) = none) ∧
    (∀ rows, read_pos_csv (Except.ok rows) = some (readPosCsvRows rows)) ∧
    (∀ tpl tl csv wk out,
      ((process_excel tpl tl csv wk out).success = true ∧
        ∃ ws, (process_excel tpl tl csv wk out).saved = some ws) ∨
      ((process_excel tpl tl csv wk out).success = false ∧
        (process_excel tpl tl csv wk out).saved = none)) ∧
    (∀ tpl ws recs wk out rc oc msg, weekCols wk = some (rc, oc) → recs ≠ [] →
      processAll rc oc recs ws = Except.error msg →
      process_excel tpl (Except.ok ws) (some recs) wk out =
        { success := false, message := "Error processing: " ++ msg,
          saved := none }) := by
  refine ⟨fun e => rfl, fun rows => rfl, ?_, ?_⟩
  · intro tpl tl csv wk out
    rcases csv with _ | recs
    · exact Or.inr ⟨rfl, rfl⟩
    · by_cases hre : recs.isEmpty = true
      · exact Or.inr (by simp [process_excel, hre])
      · rcases tl with e | ws
        · rcases e with _ | m
          · exact Or.inr (by simp [process_excel, hre])
          · exact Or.inr (by simp [process_excel, hre])
        · rcases hw : weekCols wk with _ | ⟨rc, oc⟩
          · exact Or.inr (by simp [process_excel, hre, hw])
          · rcases hp : processAll rc oc recs ws with e | wsF
            · exact Or.inr (by simp [process_excel, hre, hw, hp])
            · exact Or.inl (by simp [process_excel, hre, hw, hp])
  · intro tpl ws recs wk out rc oc msg hw hne hp
    have hre : recs.isEmpty = false := by
      cases recs with
      | nil => exact absurd rfl hne
      | cons a as => rfl
    simp [process_excel, hre, hw, hp]

/-- Witness for C7: the record loop raises on `wsNoB` and the raised message
surfaces as a failure result. -/
theorem no_exception_escapes_witness :
    process_excel "template.xlsx" (Except.ok wsNoB) (some [recBob]) "Week 1"
        "out.xlsx" =
      { success := false,
        message := "Error processing: " ++ "max() arg is an empty sequence",
        saved := none } :=
  no_exception_escapes.2.2.2 "template.xlsx" wsNoB [recBob] "Week 1" "out.xlsx"
    "S" "T" "max() arg is an empty sequence" (by decide)
    (List.cons_ne_nil recBob []) rfl

/-! ### Claim C4: the "Role" cutoff -/

/-- C4: when the first row whose second column is "Role" sits at index k,
exactly the k rows before it are usable; when no such row exists, every row
is usable. -/
theorem cutoff_detection :
    (∀ rows : List RawRow, ∀ k rk, rows[k]? = some rk → rk.colB = "Role" →
      ((rows.take k).all fun r => decide (r.colB ≠ "Role")) = true →
      cutoffIndex rows = k ∧ (rows.take (cutoffIndex rows)).length = k) ∧
    (∀ rows : List RawRow, (rows.all fun r => decide (r.colB ≠ "Role")) = true →
      rows.take (cutoffIndex rows) = rows) := by
  constructor
  · intro rows
    induction rows with
    | nil => intro k rk hk; rw [List.getElem?_nil] at hk; cases hk
    | cons r rs ih =>
      intro k rk hk hrole hall
      cases k with
      | zero =>
        rw [List.getElem?_cons_zero] at hk
        injection hk with hk
        subst hk
        simp [cutoffIndex, hrole]
      | succ k =>
        rw [List.getElem?_cons_succ] at hk
        rw [List.take_succ_cons, List.all_cons, Bool.and_eq_true] at hall
        have hr : r.colB ≠ "Role" := of_decide_eq_true hall.1
        obtain ⟨h1, h2⟩ := ih k rk hk hrole hall.2
        have hc : cutoffIndex (r :: rs) = k + 1 := by
          simp [cutoffIndex, hr, h1]
        refine ⟨hc, ?_⟩
        rw [h1] at h2
        rw [hc, List.take_succ_cons, List.length_cons, h2]
  · intro rows
    induction rows with
    | nil => intro _; rfl
    | cons r rs ih =>
      intro hall
      rw [List.all_cons, Bool.and_eq_true] at hall
      have hr : r.colB ≠ "Role" := of_decide_eq_true hall.1
      have hc : cutoffIndex (r :: rs) = cutoffIndex rs + 1 := by
        simp [cutoffIndex, hr]
      rw [hc, List.take_succ_cons, ih hall.2]

/-- Witness for C4 on a CSV with the "Role" marker at index 1. -/
theorem cutoff_detection_witness :
    cutoffIndex rowsRole = 1 ∧
      (rowsRole.take (cutoffIndex rowsRole)).length = 1 :=
  cutoff_detection.1 rowsRole 1 (RawRow.mk "Role" "" "") (by decide) rfl
    (by decide)

/-! ### Claim C3: loader cleaning and dropping -/

theorem toNumeric_nonneg (s : String) (q : ℚ) (h : toNumeric s = some q) :
    0 ≤ q := by
  rw [toNumeric] at h
  split at h
  · cases h
  · split at h
    · cases h
    · split at h
      · injection h with h
        rw [← h]
        exact Nat.cast_nonneg _
      · split at h
        · injection h with h
          rw [← h]
          have h10 : (0 : ℚ) ≤ (10 : ℚ) ^
              (List.drop 1 (List.dropWhile (fun c => decide (c ≠ dotChar))
                s.data)).length := by positivity
          exact add_nonneg (Nat.cast_nonneg _)
            (div_nonneg (Nat.cast_nonneg _) h10)
        · cases h

/-- C3: a CSV row survives the loader exactly when its name is present and
its hours text still parses after stripping non-digit/non-dot characters;
every surviving record has a non-empty name and non-negative hours; the
cleaning examples "37.5 hrs" → 37.5 and "abc" → dropped. -/
theorem loader_cleaning :
    (∀ r : RawRow, (cleanRow r).isSome = true ↔
      (r.name ≠ "" ∧ (toNumeric (cleanHours r.workHours)).isSome = true)) ∧
    (∀ rows rec, rec ∈ readPosCsvRows rows → rec.name ≠ "" ∧ 0 ≤ rec.hours) ∧
    toNumeric (cleanHours "37.5 hrs") = some (75 / 2 : ℚ) ∧
    toNumeric (cleanHours "abc") = none := by
  refine ⟨?_, ?_, ?_, by decide⟩
  · intro r
    unfold cleanRow
    by_cases hn : r.name = ""
    · simp [hn]
    · simp [hn]
  · intro rows rec hmem
    unfold readPosCsvRows at hmem
    rw [List.mem_filterMap] at hmem
    obtain ⟨a, _, ha⟩ := hmem
    unfold cleanRow at ha
    by_cases hn : a.name = ""
    · rw [if_pos hn] at ha; cases ha
    · rw [if_neg hn] at ha
      rcases hq : toNumeric (cleanHours a.workHours) with _ | q
      · rw [hq] at ha; cases ha
      · rw [hq] at ha
        injection ha with ha
        rw [← ha]
        exact ⟨hn, toNumeric_nonneg _ _ hq⟩
  · have h1 : cleanHours "37.5 hrs" = "37.5" := by decide
    rw [h1]
    have h2 : toNumeric "37.5" =
        some ((natOfDigits [Char.ofNat 51, Char.ofNat 55] : ℚ) +
          (natOfDigits [Char.ofNat 53] : ℚ) / (10 : ℚ) ^ (1 : ℕ)) := rfl
    rw [h2]
    have h3 : natOfDigits [Char.ofNat 51, Char.ofNat 55] = 37 := by decide
    have h4 : natOfDigits [Char.ofNat 53] = 5 := by decide
    rw [h3, h4]
    congr 1
    push_cast
    norm_num

/-- Witness for C3: the Jane Doe row with "37.5 hrs" survives cleaning. -/
theorem loader_cleaning_witness :
    (cleanRow (RawRow.mk "Jane" "Jane" "37.5 hrs")).isSome = true :=
  (loader_cleaning.1 (RawRow.mk "Jane" "Jane" "37.5 hrs")).mpr
    ⟨by decide, by decide⟩

/-! ### Claim C1: matched records -/

theorem weekCols_cases (wk rc oc : String) (h : weekCols wk = some (rc, oc)) :
    (wk = "Week 1" ∧ rc = "S" ∧ oc = "T") ∨
    (wk = "Week 2" ∧ rc = "V" ∧ oc = "W") := by
  unfold weekCols at h
  by_cases h1 : wk = "Week 1"
  · rw [if_pos h1, Option.some.injEq, Prod.ext_iff] at h
    exact Or.inl ⟨h1, h.1.symm, h.2.symm⟩
  · by_cases h2 : wk = "Week 2"
    · rw [if_neg h1, if_pos h2, Option.some.injEq, Prod.ext_iff] at h
      exact Or.inr ⟨h2, h.1.symm, h.2.symm⟩
    · rw [if_neg h1, if_neg h2] at h
      cases h

theorem pair_ne_of_fst_ne {a c : String} (b : ℕ) (h : a ≠ c) :
    (a, b) ≠ (c, b) :=
  fun hcon => h (congrArg Prod.fst hcon)

/-- C1: a record whose normalized name is matched in the column-C name→row
lookup — built once from the loaded sheet `ws0`, before the loop — gets
min(h, 40) written into the week's regular column and max(h - 40, 0) into its
overtime column (blank instead of 0) at the looked-up row, the columns being
S/T for Week 1 and V/W for Week 2. -/
theorem matched_write :
    ∀ wk regCol otCol (ws0 : Sheet) (st : MergeState) (rec : InRecord) (h : ℚ)
      (target : ℕ),
      weekCols wk = some (regCol, otCol) →
      isBlank rec.name = false →
      rec.hours = some h →
      normalize rec.name ∉ ignoreNames →
      normalize rec.name ∉ st.processed →
      nameToRow ws0 (normalize rec.name) = some target →
      ∃ st', processRecord regCol otCol (nameToRow ws0) st rec =
          Except.ok st' ∧
        st'.ws.cell regCol target = some (CellVal.num (regHoursOf h)) ∧
        st'.ws.cell otCol target = some (otCellVal h) ∧
        (otHoursOf h = 0 → otCellVal h = CellVal.str "") ∧
        (otHoursOf h ≠ 0 → otCellVal h = CellVal.num (otHoursOf h)) ∧
        (wk = "Week 1" → (regCol, otCol) = ("S", "T")) ∧
        (wk = "Week 2" → (regCol, otCol) = ("V", "W")) := by
  intro wk regCol otCol ws0 st rec h target hcols hblank hh hig hpr hrow
  have hcases := weekCols_cases wk regCol otCol hcols
  have hne : regCol ≠ otCol := by
    rcases hcases with ⟨_, rfl, rfl⟩ | ⟨_, rfl, rfl⟩ <;> decide
  have hstep : processRecord regCol otCol (nameToRow ws0) st rec = Except.ok
      { ws := (st.ws.setCell regCol target
                 (CellVal.num (regHoursOf h))).setCell otCol target
               (otCellVal h),
        processed := normalize rec.name :: st.processed } := by
    simp [processRecord, hblank, hh, hig, hpr, hrow]
  refine ⟨_, hstep, ?_, ?_, ?_, ?_, ?_, ?_⟩
  · rw [cell_setCell_ne _ _ (pair_ne_of_fst_ne target hne), cell_setCell_self]
  · rw [cell_setCell_self]
  · intro h0; rw [otCellVal, if_pos h0]
  · intro h0; rw [otCellVal, if_neg h0]
  · intro hwk
    rcases hcases with ⟨_, rfl, rfl⟩ | ⟨hw2, _, _⟩
    · rfl
    · rw [hwk] at hw2; exact absurd hw2 (by decide)
  · intro hwk
    rcases hcases with ⟨hw1, _, _⟩ | ⟨_, rfl, rfl⟩
    · rw [hwk] at hw1; exact absurd hw1 (by decide)
    · rfl

/-- Witness for C1: Jane Doe with 45 hours is matched at row 2 of `wsJane`
under Week 1. -/
theorem matched_write_witness :
    ∃ st', processRecord "S" "T" (nameToRow wsJane) stJane0 recJane =
        Except.ok st' ∧
      st'.ws.cell "S" 2 = some (CellVal.num (regHoursOf 45)) ∧
      st'.ws.cell "T" 2 = some (otCellVal 45) ∧
      (otHoursOf 45 = 0 → otCellVal 45 = CellVal.str "") ∧
      (otHoursOf 45 ≠ 0 → otCellVal 45 = CellVal.num (otHoursOf 45)) ∧
      ("Week 1" = "Week 1" → (("S" : String), ("T" : String)) = ("S", "T")) ∧
      ("Week 1" = "Week 2" → (("S" : String), ("T" : String)) = ("V", "W")) :=
  matched_write "Week 1" "S" "T" wsJane stJane0 recJane 45 2 rfl (by decide)
    rfl (by decide) (by decide) (by decide)

/-! ### Claim C5: at most one write per normalized name -/

theorem except_pure {ε σ : Type} (b : σ) : (pure b : Except ε σ) = Except.ok b :=
  rfl

theorem except_bind_ok {ε σ τ : Type} (a : σ) (f : σ → Except ε τ) :
    (Except.ok a >>= f) = f a := rfl

theorem except_bind_error {ε σ τ : Type} (e : ε) (f : σ → Except ε τ) :
    ((Except.error e : Except ε σ) >>= f) = Except.error e := rfl

/-- A duplicate (or otherwise skipped) key leaves the state untouched. -/
theorem processRecord_skip_mem (regCol otCol : String)
    (lookup : String → Option ℕ) (st : MergeState) (rec : InRecord)
    (h : normalize rec.name ∈ st.processed) :
    processRecord regCol otCol lookup st rec = Except.ok st := by
  cases hb : isBlank rec.name with
  | true => simp [processRecord, hb]
  | false =>
    cases hh : rec.hours with
    | none => simp [processRecord, hb, hh]
    | some q =>
      by_cases hig : normalize rec.name ∈ ignoreNames
      · simp [processRecord, hb, hh, hig]
      · simp [processRecord, hb, hh, hig, h]

/-- Every successful step leaves the processed set untouched or prepends the
record's key. -/
theorem processRecord_processed_shape (regCol otCol : String)
    (lookup : String → Option ℕ) (st : MergeState) (rec : InRecord)
    (st' : MergeState)
    (h : processRecord regCol otCol lookup st rec = Except.ok st') :
    st' = st ∨ st'.processed = normalize rec.name :: st.processed := by
  cases hb : isBlank rec.name with
  | true =>
    have he : processRecord regCol otCol lookup st rec = Except.ok st := by
      simp [processRecord, hb]
    rw [he] at h
    injection h with h
    exact Or.inl h.symm
  | false =>
    cases hh : rec.hours with
    | none =>
      have he : processRecord regCol otCol lookup st rec = Except.ok st := by
        simp [processRecord, hb, hh]
      rw [he] at h
      injection h with h
      exact Or.inl h.symm
    | some q =>
      by_cases hig : normalize rec.name ∈ ignoreNames
      · have he : processRecord regCol otCol lookup st rec = Except.ok st := by
          simp [processRecord, hb, hh, hig]
        rw [he] at h
        injection h with h
        exact Or.inl h.symm
      · by_cases hpr : normalize rec.name ∈ st.processed
        · have he : processRecord regCol otCol lookup st rec = Except.ok st := by
            simp [processRecord, hb, hh, hig, hpr]
          rw [he] at h
          injection h with h
          exact Or.inl h.symm
        · cases hrow : lookup (normalize rec.name) with
          | some target =>
            have he : processRecord regCol otCol lookup st rec = Except.ok
                { ws := (st.ws.setCell regCol target
                           (CellVal.num (regHoursOf q))).setCell otCol target
                         (otCellVal q),
                  processed := normalize rec.name :: st.processed } := by
              simp [processRecord, hb, hh, hig, hpr, hrow]
            rw [he] at h
            injection h with h
            rw [← h]
            exact Or.inr rfl
          | none =>
            cases hlb : lastB st.ws with
            | none =>
              have he : processRecord regCol otCol lookup st rec =
                  Except.error "max() arg is an empty sequence" := by
                simp [processRecord, hb, hh, hig, hpr, hrow, hlb]
              rw [he] at h
              cases h
            | some lb =>
              have he : processRecord regCol otCol lookup st rec = Except.ok
                  { ws := ((((st.ws.insertRows (lb + 1)).setCell "B" (lb + 1)
                              (CellVal.str rec.name)).setFill "B" (lb + 1)
                              redFill).setCell regCol (lb + 1)
                              (CellVal.num (regHoursOf q))).setCell otCol
                            (lb + 1) (otCellVal q),
                    processed := normalize rec.name :: st.processed } := by
                simp [processRecord, hb, hh, hig, hpr, hrow, hlb]
              rw [he] at h
              injection h with h
              rw [← h]
              exact Or.inr rfl

/-- A record that passes every guard records its key as processed. -/
theorem processRecord_writes_key (regCol otCol : String)
    (lookup : String → Option ℕ) (st : MergeState) (rec : InRecord) (q : ℚ)
    (stB : MergeState)
    (hb : isBlank rec.name = false) (hh : rec.hours = some q)
    (hig : normalize rec.name ∉ ignoreNames)
    (hpr : normalize rec.name ∉ st.processed)
    (hok : processRecord regCol otCol lookup st rec = Except.ok stB) :
    normalize rec.name ∈ stB.processed := by
  cases hrow : lookup (normalize rec.name) with
  | some target =>
    have he : processRecord regCol otCol lookup st rec = Except.ok
        { ws := (st.ws.setCell regCol target
                   (CellVal.num (regHoursOf q))).setCell otCol target
                 (otCellVal q),
          processed := normalize rec.name :: st.processed } := by
      simp [processRecord, hb, hh, hig, hpr, hrow]
    rw [he] at hok
    injection hok with hok
    rw [← hok]
    exact List.mem_cons_self _ _
  | none =>
    cases hlb : lastB st.ws with
    | none =>
      have he : processRecord regCol otCol lookup st rec =
          Except.error "max() arg is an empty sequence" := by
        simp [processRecord, hb, hh, hig, hpr, hrow, hlb]
      rw [he] at hok
      cases hok
    | some lb =>
      have he : processRecord regCol otCol lookup st rec = Except.ok
          { ws := ((((st.ws.insertRows (lb + 1)).setCell "B" (lb + 1)
                      (CellVal.str rec.name)).setFill "B" (lb + 1)
                      redFill).setCell regCol (lb + 1)
                      (CellVal.num (regHoursOf q))).setCell otCol (lb + 1)
                    (otCellVal q),
            processed := normalize rec.name :: st.processed } := by
        simp [processRecord, hb, hh, hig, hpr, hrow, hlb]
      rw [he] at hok
      injection hok with hok
      rw [← hok]
      exact List.mem_cons_self _ _

/-- The processed set only grows along a successful step. -/
theorem processRecord_processed_mono (regCol otCol : String)
    (lookup : String → Option ℕ) (st : MergeState) (rec : InRecord)
    (st' : MergeState)
    (h : processRecord regCol otCol lookup st rec = Except.ok st') :
    ∀ k ∈ st.processed, k ∈ st'.processed := by
  rcases processRecord_processed_shape regCol otCol lookup st rec st' h with
    rfl | hsh
  · exact fun k hk => hk
  · intro k hk; rw [hsh]; exact List.mem_cons_of_mem _ hk

/-- The processed set only grows along a successful run of the loop. -/
theorem foldlM_processed_mono (regCol otCol : String)
    (lookup : String → Option ℕ) (l : List InRecord) (st st' : MergeState)
    (h : l.foldlM (processRecord regCol otCol lookup) st = Except.ok st') :
    ∀ k ∈ st.processed, k ∈ st'.processed := by
  induction l generalizing st with
  | nil =>
    rw [List.foldlM_nil, except_pure] at h
    injection h with h
    rw [h]
    exact fun k hk => hk
  | cons a as ih =>
    rw [List.foldlM_cons] at h
    cases hs : processRecord regCol otCol lookup st a with
    | error e => rw [hs, except_bind_error] at h; cases h
    | ok st1 =>
      rw [hs, except_bind_ok] at h
      intro k hk
      exact ih st1 h k
        (processRecord_processed_mono regCol otCol lookup st a st1 hs k hk)

/-- C5: once a record's normalized key has caused a write, every later record
in the same run that normalizes to the same key is a complete no-op. -/
theorem dedup_single_write :
    ∀ (regCol otCol : String) (lookup : String → Option ℕ)
      (stA : MergeState) (rec : InRecord) (q : ℚ)
      (stB : MergeState) (l : List InRecord) (stC : MergeState)
      (rec2 : InRecord),
      isBlank rec.name = false → rec.hours = some q →
      normalize rec.name ∉ ignoreNames →
      normalize rec.name ∉ stA.processed →
      processRecord regCol otCol lookup stA rec = Except.ok stB →
      l.foldlM (processRecord regCol otCol lookup) stB = Except.ok stC →
      normalize rec2.name = normalize rec.name →
      processRecord regCol otCol lookup stC rec2 = Except.ok stC := by
  intro regCol otCol lookup stA rec q stB l stC rec2 hb hh hig hpr hokB hfold
    hkey
  have h1 : normalize rec.name ∈ stB.processed :=
    processRecord_writes_key regCol otCol lookup stA rec q stB hb hh hig hpr
      hokB
  have h2 : normalize rec.name ∈ stC.processed :=
    foldlM_processed_mono regCol otCol lookup l stB stC hfold _ h1
  exact processRecord_skip_mem regCol otCol lookup stC rec2
    (by rw [hkey]; exact h2)

/-- Witness for C5: after Jane Doe is merged, the variant "JANE  doe" row is
skipped without touching the state. -/
theorem dedup_single_write_witness :
    processRecord "S" "T" (nameToRow wsJane) stJane1 recJaneDup =
      Except.ok stJane1 :=
  dedup_single_write "S" "T" (nameToRow wsJane) stJane0 recJane 45 stJane1 []
    stJane1 recJaneDup (by decide) rfl (by decide) (by decide) rfl rfl
    (by decide)

/-! ### Claim C10: unmatched record with an empty column B -/

/-- `foldlM` over `Except` splits across list append. -/
theorem foldlM_append_except {α σ : Type} (f : σ → α → Except String σ)
    (l1 l2 : List α) (b : σ) :
    (l1 ++ l2).foldlM f b = (l1.foldlM f b >>= fun c => l2.foldlM f c) := by
  induction l1 generalizing b with
  | nil => rw [List.nil_append, List.foldlM_nil, except_pure, except_bind_ok]
  | cons a as ih =>
    rw [List.cons_append, List.foldlM_cons, List.foldlM_cons]
    cases h : f b a with
    | error e => rfl
    | ok b1 => exact ih b1

/-- C10: when an unmatched record is reached while no row 2..max_row has a
truthy column-B value, the `max()` over an empty sequence aborts the run:
the result is a failure and nothing is saved, whatever was merged before. -/
theorem empty_column_b_failure :
    ∀ (tpl : String) (ws0 : Sheet) (l1 : List InRecord) (rec : InRecord)
      (l2 : List InRecord) (wk out rc oc : String) (q : ℚ) (st1 : MergeState),
      weekCols wk = some (rc, oc) →
      l1.foldlM (processRecord rc oc (nameToRow ws0))
        { ws := ws0, processed := [] } = Except.ok st1 →
      isBlank rec.name = false → rec.hours = some q →
      normalize rec.name ∉ ignoreNames →
      normalize rec.name ∉ st1.processed →
      nameToRow ws0 (normalize rec.name) = none →
      lastB st1.ws = none →
      process_excel tpl (Except.ok ws0) (some (l1 ++ rec :: l2)) wk out =
        { success := false,
          message := "Error processing: max() arg is an empty sequence",
          saved := none } := by
  intro tpl ws0 l1 rec l2 wk out rc oc q st1 hcols hfold1 hb hh hig hpr hrow hlb
  have hstep : processRecord rc oc (nameToRow ws0) st1 rec =
      Except.error "max() arg is an empty sequence" := by
    simp [processRecord, hb, hh, hig, hpr, hrow, hlb]
  have hfold : (l1 ++ rec :: l2).foldlM (processRecord rc oc (nameToRow ws0))
      { ws := ws0, processed := [] } =
      Except.error "max() arg is an empty sequence" := by
    rw [foldlM_append_except, hfold1, except_bind_ok, List.foldlM_cons, hstep,
      except_bind_error]
  have hpa : processAll rc oc (l1 ++ rec :: l2) ws0 =
      Except.error "max() arg is an empty sequence" := by
    unfold processAll
    rw [hfold]
  have hre : (l1 ++ rec :: l2).isEmpty = false := by simp
  simp [process_excel, hre, hcols, hpa]

/-- Witness for C10: merging Bob into the all-empty template `wsNoB` fails
with the empty-sequence message and saves nothing. -/
theorem empty_column_b_failure_witness :
    process_excel "template.xlsx" (Except.ok wsNoB) (some [recBob]) "Week 1"
        "out.xlsx" =
      { success := false,
        message := "Error processing: max() arg is an empty sequence",
        saved := none } :=
  empty_column_b_failure "template.xlsx" wsNoB [] recBob [] "Week 1" "out.xlsx"
    "S" "T" 10 { ws := wsNoB, processed := [] } (by decide) rfl (by decide) rfl
    (by decide) (by decide) (by decide) (by decide)

/-! ### Claim C2: unmatched records are inserted below the last B value -/

theorem pair_ne_of_snd_ne {a c : String} {b d : ℕ} (h : b ≠ d) :
    (a, b) ≠ (c, d) :=
  fun hcon => h (congrArg Prod.snd hcon)

theorem mem_scanRows (ws : Sheet) (r : ℕ) :
    r ∈ scanRows ws ↔ 2 ≤ r ∧ r ≤ ws.maxRow := by
  unfold scanRows
  rw [List.mem_range'_1]
  omega

theorem isBlank_false_ne_empty {s : String} (h : isBlank s = false) : s ≠ "" :=
  fun hcon => absurd (hcon ▸ h) (by decide)

/-- C2: an unmatched record is inserted at the row just below the last row
2..max_row with a truthy column-B value: the raw name lands in column B with
the solid red fill, the regular/overtime values go to the week's target
columns with the blank-for-zero rule, earlier column-B rows are untouched,
and the next scan for the last B row finds exactly the inserted row. -/
theorem unmatched_insert :
    ∀ (wk regCol otCol : String) (ws0 : Sheet) (st : MergeState)
      (rec : InRecord) (h : ℚ) (lb : ℕ),
      weekCols wk = some (regCol, otCol) →
      isBlank rec.name = false →
      rec.hours = some h →
      normalize rec.name ∉ ignoreNames →
      normalize rec.name ∉ st.processed →
      nameToRow ws0 (normalize rec.name) = none →
      lastB st.ws = some lb →
      ∃ st', processRecord regCol otCol (nameToRow ws0) st rec =
          Except.ok st' ∧
        st'.ws.cell "B" (lb + 1) = some (CellVal.str rec.name) ∧
        st'.ws.fillAt "B" (lb + 1) = some redFill ∧
        st'.ws.cell regCol (lb + 1) = some (CellVal.num (regHoursOf h)) ∧
        st'.ws.cell otCol (lb + 1) = some (otCellVal h) ∧
        (∀ r, r < lb + 1 → st'.ws.cell "B" r = st.ws.cell "B" r) ∧
        lastB st'.ws = some (lb + 1) := by
  intro wk regCol otCol ws0 st rec h lb hcols hblank hh hig hpr hrow hlast
  have hBr : ("B" : String) ≠ regCol := by
    rcases weekCols_cases wk regCol otCol hcols with ⟨_, rfl, _⟩ | ⟨_, rfl, _⟩ <;>
      decide
  have hBo : ("B" : String) ≠ otCol := by
    rcases weekCols_cases wk regCol otCol hcols with ⟨_, _, rfl⟩ | ⟨_, _, rfl⟩ <;>
      decide
  have hro : regCol ≠ otCol := by
    rcases weekCols_cases wk regCol otCol hcols with ⟨_, rfl, rfl⟩ | ⟨_, rfl, rfl⟩ <;>
      decide
  have hname : rec.name ≠ "" := isBlank_false_ne_empty hblank
  -- facts about the previous last B row
  have hspec := max?_spec _ lb hlast
  have hlbmem : lb ∈ scanRows st.ws ∧ truthy (st.ws.cell "B" lb) = true := by
    have := hspec.1
    rw [List.mem_filter] at this
    exact this
  have hlb2 : 2 ≤ lb := ((mem_scanRows st.ws lb).mp hlbmem.1).1
  have hlbM : lb ≤ st.ws.maxRow := ((mem_scanRows st.ws lb).mp hlbmem.1).2
  have hub : ∀ x ∈ scanRows st.ws, truthy (st.ws.cell "B" x) = true → x ≤ lb := by
    intro x hx hpx
    exact hspec.2 x (List.mem_filter.mpr ⟨hx, hpx⟩)
  have hstep : processRecord regCol otCol (nameToRow ws0) st rec = Except.ok
      { ws := ((((st.ws.insertRows (lb + 1)).setCell "B" (lb + 1)
                  (CellVal.str rec.name)).setFill "B" (lb + 1)
                  redFill).setCell regCol (lb + 1)
                  (CellVal.num (regHoursOf h))).setCell otCol (lb + 1)
                (otCellVal h),
        processed := normalize rec.name :: st.processed } := by
    simp [processRecord, hblank, hh, hig, hpr, hrow, hlast]
  refine ⟨_, hstep, ?_, ?_, ?_, ?_, ?_, ?_⟩
  · rw [cell_setCell_ne _ _ (pair_ne_of_fst_ne (lb + 1) hBo),
      cell_setCell_ne _ _ (pair_ne_of_fst_ne (lb + 1) hBr), cell_setFill,
      cell_setCell_self]
  · rw [fillAt_setCell, fillAt_setCell, fillAt_setFill_self]
  · rw [cell_setCell_ne _ _ (pair_ne_of_fst_ne (lb + 1) hro), cell_setCell_self]
  · rw [cell_setCell_self]
  · intro r hr
    have hrne : r ≠ lb + 1 := Nat.ne_of_lt hr
    rw [cell_setCell_ne _ _ (pair_ne_of_snd_ne hrne),
      cell_setCell_ne _ _ (pair_ne_of_snd_ne hrne), cell_setFill,
      cell_setCell_ne _ _ (pair_ne_of_snd_ne hrne), cell_insertRows_lt _ _ hr]
  · -- the new scan finds the inserted row as the last B-valued row
    have hM : (((((st.ws.insertRows (lb + 1)).setCell "B" (lb + 1)
        (CellVal.str rec.name)).setFill "B" (lb + 1) redFill).setCell regCol
        (lb + 1) (CellVal.num (regHoursOf h))).setCell otCol (lb + 1)
        (otCellVal h)).maxRow = st.ws.maxRow + 1 := by
      simp only [maxRow_setCell, maxRow_setFill, maxRow_insertRows]
      split_ifs <;> omega
    have hcellIns : (((((st.ws.insertRows (lb + 1)).setCell "B" (lb + 1)
        (CellVal.str rec.name)).setFill "B" (lb + 1) redFill).setCell regCol
        (lb + 1) (CellVal.num (regHoursOf h))).setCell otCol (lb + 1)
        (otCellVal h)).cell "B" (lb + 1) = some (CellVal.str rec.name) := by
      rw [cell_setCell_ne _ _ (pair_ne_of_fst_ne (lb + 1) hBo),
        cell_setCell_ne _ _ (pair_ne_of_fst_ne (lb + 1) hBr), cell_setFill,
        cell_setCell_self]
    unfold lastB
    apply max?_eq_some_of
    · rw [List.mem_filter]
      constructor
      · rw [mem_scanRows, hM]
        omega
      · rw [hcellIns]
        simp [truthy, hname]
    · intro x hx
      rw [List.mem_filter] at hx
      obtain ⟨hxs, hpx⟩ := hx
      rw [mem_scanRows, hM] at hxs
      rcases Nat.lt_trichotomy x (lb + 1) with hlt | heq | hgt
      · exact Nat.le_of_lt hlt
      · exact Nat.le_of_eq heq
      · exfalso
        have hxne : x ≠ lb + 1 := Nat.ne_of_gt hgt
        rw [cell_setCell_ne _ _ (pair_ne_of_snd_ne hxne),
          cell_setCell_ne _ _ (pair_ne_of_snd_ne hxne), cell_setFill,
          cell_setCell_ne _ _ (pair_ne_of_snd_ne hxne),
          cell_insertRows_gt _ _ hgt] at hpx
        have hxm : x - 1 ∈ scanRows st.ws := by
          rw [mem_scanRows]
          omega
        have := hub (x - 1) hxm hpx
        omega

/-- Witness for C2: Bob (10 hours, unmatched in `wsJane`) is inserted at
row 3, just below Jane Doe's row 2. -/
theorem unmatched_insert_witness :
    ∃ st', processRecord "S" "T" (nameToRow wsJane) stJane0 recBob =
        Except.ok st' ∧
      st'.ws.cell "B" 3 = some (CellVal.str recBob.name) ∧
      st'.ws.fillAt "B" 3 = some redFill ∧
      st'.ws.cell "S" 3 = some (CellVal.num (regHoursOf 10)) ∧
      st'.ws.cell "T" 3 = some (otCellVal 10) ∧
      (∀ r, r < 3 → st'.ws.cell "B" r = stJane0.ws.cell "B" r) ∧
      lastB st'.ws = some 3 :=
  unmatched_insert "Week 1" "S" "T" wsJane stJane0 recBob 10 2 rfl (by decide)
    rfl (by decide) (by decide) (by decide) (by decide)

/-! ### Claim C9: `normalize` is idempotent -/

theorem alnum_not_ws {c : Char} (h : isLowerAlnum c = true) :
    isWsChar c = false := by
  simp only [isLowerAlnum, decide_eq_true_eq] at h
  simp only [isWsChar, decide_eq_false_iff_not]
  omega

theorem lowerChar_fix {c : Char} (h : isLowerAlnum c = true ∨ c = spaceChar) :
    lowerChar c = c := by
  rcases h with h | rfl
  · simp only [isLowerAlnum, decide_eq_true_eq] at h
    rw [lowerChar, if_neg]
    omega
  · decide

theorem subChar_fix {c : Char} (h : isLowerAlnum c = true ∨ c = spaceChar) :
    subChar c = c := by
  rcases h with h | rfl
  · rw [subChar, if_pos h]
  · decide

theorem subChar_good (c : Char) :
    isLowerAlnum (subChar c) = true ∨ subChar c = spaceChar := by
  rw [subChar]
  split
  · left; assumption
  · right; rfl

theorem splitWsAux_sound :
    ∀ (l cur : List Char), (∀ c ∈ cur, isWsChar c = false) →
      ∀ w ∈ splitWsAux l cur,
        w ≠ [] ∧ ∀ c ∈ w, isWsChar c = false ∧ (c ∈ l ∨ c ∈ cur) := by
  intro l
  induction l with
  | nil =>
    intro cur hcur w hw
    cases cur with
    | nil => cases hw
    | cons d ds =>
      rw [splitWsAux] at hw
      simp only [List.isEmpty_cons, Bool.false_eq_true, if_false] at hw
      rw [List.mem_singleton] at hw
      subst hw
      refine ⟨by simp, ?_⟩
      intro c hc
      rw [List.mem_reverse] at hc
      exact ⟨hcur c hc, Or.inr hc⟩
  | cons a as ih =>
    intro cur hcur w hw
    rw [splitWsAux] at hw
    cases ha : isWsChar a with
    | true =>
      rw [ha, if_pos rfl] at hw
      cases cur with
      | nil =>
        rw [List.isEmpty_nil, if_pos rfl] at hw
        obtain ⟨h1, h2⟩ := ih [] (by intro c hc; cases hc) w hw
        refine ⟨h1, fun c hc => ?_⟩
        obtain ⟨h3, h4⟩ := h2 c hc
        rcases h4 with h4 | h4
        · exact ⟨h3, Or.inl (List.mem_cons_of_mem a h4)⟩
        · cases h4
      | cons d ds =>
        rw [List.isEmpty_cons, if_neg (by decide)] at hw
        rcases List.mem_cons.mp hw with rfl | hw
        · refine ⟨by simp, ?_⟩
          intro c hc
          rw [List.mem_reverse] at hc
          exact ⟨hcur c hc, Or.inr hc⟩
        · obtain ⟨h1, h2⟩ := ih [] (by intro c hc; cases hc) w hw
          refine ⟨h1, fun c hc => ?_⟩
          obtain ⟨h3, h4⟩ := h2 c hc
          rcases h4 with h4 | h4
          · exact ⟨h3, Or.inl (List.mem_cons_of_mem a h4)⟩
          · cases h4
    | false =>
      rw [ha] at hw
      simp only [Bool.false_eq_true, if_false] at hw
      obtain ⟨h1, h2⟩ := ih (a :: cur)
        (by
          intro c hc
          rcases List.mem_cons.mp hc with rfl | hc
          · exact ha
          · exact hcur c hc) w hw
      refine ⟨h1, fun c hc => ?_⟩
      obtain ⟨h3, h4⟩ := h2 c hc
      rcases h4 with h4 | h4
      · exact ⟨h3, Or.inl (List.mem_cons_of_mem a h4)⟩
      · rcases List.mem_cons.mp h4 with rfl | h4
        · exact ⟨h3, Or.inl (List.mem_cons_self _ _)⟩
        · exact ⟨h3, Or.inr h4⟩

theorem joinSpace_single (w : List Char) : joinSpace [w] = w := rfl

theorem joinSpace_cons₂ (w v : List Char) (vs : List (List Char)) :
    joinSpace (w :: v :: vs) = w ++ spaceChar :: joinSpace (v :: vs) := rfl

theorem join_chars :
    ∀ ws : List (List Char),
      (∀ w ∈ ws, ∀ c ∈ w, isLowerAlnum c = true) →
      ∀ c ∈ joinSpace ws, isLowerAlnum c = true ∨ c = spaceChar := by
  intro ws
  induction ws with
  | nil => intro _ c hc; cases hc
  | cons w vs ih =>
    intro hws c hc
    cases vs with
    | nil =>
      rw [joinSpace_single] at hc
      exact Or.inl (hws w (List.mem_cons_self w []) c hc)
    | cons v vs2 =>
      rw [joinSpace_cons₂] at hc
      rcases List.mem_append.mp hc with h1 | h2
      · exact Or.inl (hws w (List.mem_cons_self w (v :: vs2)) c h1)
      · rcases List.mem_cons.mp h2 with rfl | h2
        · exact Or.inr rfl
        · exact ih (fun u hu => hws u (List.mem_cons_of_mem w hu)) c h2

theorem splitWsAux_word_prefix :
    ∀ (w : List Char), (∀ c ∈ w, isWsChar c = false) →
      ∀ (l cur : List Char),
        splitWsAux (w ++ l) cur = splitWsAux l (w.reverse ++ cur) := by
  intro w
  induction w with
  | nil => intro _ l cur; rw [List.nil_append, List.reverse_nil, List.nil_append]
  | cons a as ih =>
    intro hw l cur
    have ha : isWsChar a = false := hw a (List.mem_cons_self a as)
    rw [List.cons_append, splitWsAux, ha]
    simp only [Bool.false_eq_true, if_false]
    rw [ih (fun c hc => hw c (List.mem_cons_of_mem a hc)) l (a :: cur),
      List.reverse_cons, List.append_assoc, List.singleton_append]

theorem splitWsAux_roundtrip :
    ∀ ws : List (List Char),
      (∀ w ∈ ws, w ≠ [] ∧ ∀ c ∈ w, isWsChar c = false) →
      splitWsAux (joinSpace ws) [] = ws := by
  intro ws
  induction ws with
  | nil => intro _; rfl
  | cons w vs ih =>
    intro hws
    obtain ⟨hw1, hw2⟩ := hws w (List.mem_cons_self w vs)
    cases vs with
    | nil =>
      rw [joinSpace_single, ← List.append_nil w,
        splitWsAux_word_prefix w hw2 [] [], splitWsAux]
      rw [List.append_nil, List.append_nil]
      have hne : w.reverse.isEmpty = false := by
        cases hrev : w.reverse with
        | nil => exact absurd (by simpa using congrArg List.reverse hrev) hw1
        | cons d ds => rfl
      rw [hne]
      simp only [Bool.false_eq_true, if_false, List.reverse_reverse]
    | cons v vs2 =>
      rw [joinSpace_cons₂,
        splitWsAux_word_prefix w hw2 (spaceChar :: joinSpace (v :: vs2)) [],
        splitWsAux]
      rw [if_pos (by decide)]
      have hne : (w.reverse ++ []).isEmpty = false := by
        rw [List.append_nil]
        cases hrev : w.reverse with
        | nil => exact absurd (by simpa using congrArg List.reverse hrev) hw1
        | cons d ds => rfl
      rw [hne]
      simp only [Bool.false_eq_true, if_false, List.append_nil,
        List.reverse_reverse]
      rw [ih (fun u hu => hws u (List.mem_cons_of_mem w hu))]

theorem splitWsAux_dropWhile (l : List Char) :
    splitWsAux (l.dropWhile isWsChar) [] = splitWsAux l [] := by
  induction l with
  | nil => rfl
  | cons a as ih =>
    rw [List.dropWhile_cons]
    cases ha : isWsChar a with
    | true =>
      rw [if_pos rfl, ih, splitWsAux, ha, if_pos rfl, List.isEmpty_nil,
        if_pos rfl]
    | false => rw [if_neg (by simp)]

theorem splitWsAux_all_ws :
    ∀ (t : List Char), (∀ c ∈ t, isWsChar c = true) →
      ∀ cur, splitWsAux t cur = if cur.isEmpty then [] else [cur.reverse] := by
  intro t
  induction t with
  | nil => intro _ cur; rfl
  | cons a as ih =>
    intro ht cur
    have ha : isWsChar a = true := ht a (List.mem_cons_self a as)
    rw [splitWsAux, ha, if_pos rfl,
      ih (fun c hc => ht c (List.mem_cons_of_mem a hc)) []]
    rw [List.isEmpty_nil, if_pos rfl]

theorem splitWsAux_append_ws :
    ∀ (l t : List Char), (∀ c ∈ t, isWsChar c = true) →
      ∀ cur, splitWsAux (l ++ t) cur = splitWsAux l cur := by
  intro l t ht
  induction l with
  | nil =>
    intro cur
    rw [List.nil_append, splitWsAux_all_ws t ht cur, splitWsAux]
  | cons a as ih =>
    intro cur
    rw [List.cons_append, splitWsAux, splitWsAux]
    cases ha : isWsChar a with
    | true =>
      rw [if_pos rfl, if_pos rfl]
      cases cur with
      | nil => rw [List.isEmpty_nil, if_pos rfl, if_pos rfl, ih []]
      | cons d ds =>
        rw [List.isEmpty_cons, if_neg (by decide), if_neg (by decide), ih []]
    | false =>
      simp only [Bool.false_eq_true, if_false]
      exact ih (a :: cur)

theorem splitWsAux_pyStrip (l : List Char) :
    splitWsAux (pyStrip l) [] = splitWsAux l [] := by
  have hdecomp : l.dropWhile isWsChar =
      pyStrip l ++ ((l.dropWhile isWsChar).reverse.takeWhile isWsChar).reverse := by
    conv_lhs => rw [← List.reverse_reverse (l.dropWhile isWsChar),
      ← List.takeWhile_append_dropWhile isWsChar (l.dropWhile isWsChar).reverse]
    rw [List.reverse_append]
    rfl
  have hws : ∀ c ∈ ((l.dropWhile isWsChar).reverse.takeWhile isWsChar).reverse,
      isWsChar c = true := by
    intro c hc
    rw [List.mem_reverse] at hc
    exact List.mem_takeWhile_imp hc
  calc splitWsAux (pyStrip l) []
      = splitWsAux (pyStrip l ++
          ((l.dropWhile isWsChar).reverse.takeWhile isWsChar).reverse) [] :=
        (splitWsAux_append_ws _ _ hws []).symm
    _ = splitWsAux (l.dropWhile isWsChar) [] := by rw [← hdecomp]
    _ = splitWsAux l [] := splitWsAux_dropWhile l

theorem mem_pyStrip {c : Char} {l : List Char} (h : c ∈ pyStrip l) : c ∈ l := by
  rw [pyStrip, List.mem_reverse] at h
  have h1 : c ∈ (l.dropWhile isWsChar).reverse :=
    (List.dropWhile_sublist isWsChar).subset h
  rw [List.mem_reverse] at h1
  exact (List.dropWhile_sublist isWsChar).subset h1

theorem map_fix (f : Char → Char) :
    ∀ l : List Char, (∀ c ∈ l, f c = c) → l.map f = l := by
  intro l
  induction l with
  | nil => intro _; rfl
  | cons a as ih =>
    intro h
    rw [List.map_cons, h a (List.mem_cons_self a as),
      ih fun c hc => h c (List.mem_cons_of_mem a hc)]

/-- The words produced by the first pass of `normalize` are non-empty and
consist only of lowercase alphanumeric characters. -/
theorem normalize_words_NF (x : String) :
    ∀ w ∈ splitWsAux (((pyStrip x.data).map lowerChar).map subChar) [],
      w ≠ [] ∧ ∀ c ∈ w, isLowerAlnum c = true := by
  intro w hw
  obtain ⟨h1, h2⟩ :=
    splitWsAux_sound (((pyStrip x.data).map lowerChar).map subChar) []
      (by intro c hc; cases hc) w hw
  refine ⟨h1, ?_⟩
  intro c hc
  obtain ⟨h3, h4⟩ := h2 c hc
  rcases h4 with h4 | h4
  · rw [List.mem_map] at h4
    obtain ⟨d, _, rfl⟩ := h4
    rcases subChar_good d with hg | hg
    · exact hg
    · rw [hg] at h3; exact absurd h3 (by decide)
  · cases h4

/-- `normalize` leaves any space-joined list of non-empty lowercase
alphanumeric words unchanged. -/
theorem normalize_fixed_on_NF (ws : List (List Char))
    (hNF : ∀ w ∈ ws, w ≠ [] ∧ ∀ c ∈ w, isLowerAlnum c = true) :
    normalize (String.mk (joinSpace ws)) = String.mk (joinSpace ws) := by
  have hNFws : ∀ w ∈ ws, w ≠ [] ∧ ∀ c ∈ w, isWsChar c = false := by
    intro w hw
    obtain ⟨h1, h2⟩ := hNF w hw
    exact ⟨h1, fun c hc => alnum_not_ws (h2 c hc)⟩
  have hjoin : ∀ c ∈ joinSpace ws, isLowerAlnum c = true ∨ c = spaceChar :=
    join_chars ws (fun w hw => (hNF w hw).2)
  have hsub : ∀ c ∈ pyStrip (joinSpace ws),
      isLowerAlnum c = true ∨ c = spaceChar :=
    fun c hc => hjoin c (mem_pyStrip hc)
  rw [normalize]
  have hdata : (String.mk (joinSpace ws)).data = joinSpace ws := rfl
  rw [hdata, map_fix lowerChar _ (fun c hc => lowerChar_fix (hsub c hc)),
    map_fix subChar _ (fun c hc => subChar_fix (hsub c hc)),
    splitWsAux_pyStrip, splitWsAux_roundtrip ws hNFws]

/-- C9: `normalize` is idempotent, and case/space-insensitive on the spec's
example pair. -/
theorem normalize_props :
    (∀ x : String, normalize (normalize x) = normalize x) ∧
    normalize "  H-R   Host " = normalize "h r host" := by
  constructor
  · intro x
    have hx : normalize x = String.mk
        (joinSpace (splitWsAux (((pyStrip x.data).map lowerChar).map subChar) [])) :=
      rfl
    rw [hx]
    exact normalize_fixed_on_NF _ (normalize_words_NF x)
  · decide

/-- Witness for C9 at the spec's example string. -/
theorem normalize_props_witness :
    normalize (normalize "  H-R   Host ") = normalize "  H-R   Host " :=
  normalize_props.1 "  H-R   Host "

end WHProc
